import Mathlib

/-!
Verification of the two logic cores of the aws-vault CLI fork:

* `validateAccessControls` (cli/global.go): validates an access-control
  expression string against the regular expression
  `^(T1|...|Tn)(?:\s*(And|Or)\s*(T1|...|Tn))*$` built over the closed
  vocabulary `accessControlOptions`, splits it on `\s*(And|Or)\s*`, and
  rejects repeated terms.  Strings are embedded as `List Char`.

* `CopyCommand` (cli/copy.go): enumerates the keys of the three secret
  namespaces (Credential, OIDCToken, Session) of a source keyring, then
  copies every item to a destination keyring, failing fast on the first
  error.  Backends are embedded as association lists together with a
  fault oracle for injected I/O failures, and the orchestrator records a
  trace of the store operations it invokes.
-/

namespace AVault

/-! ## Access-control expression validator -/

/-- Whitespace characters matched by the regular-expression character
class backslash-s of the Go regexp package (RE2). -/
def isWS (c : Char) : Bool :=
  c = ' ' || c = '\t' || c = '\n' || c = '\x0c' || c = '\r'

/-- The closed vocabulary `accessControlOptions` from cli/global.go. -/
def accessControlOptions : List (List Char) :=
  ["UserPresence".toList, "BiometryCurrentSet".toList, "BiometryAnySet".toList,
   "DevicePasscode".toList, "Watch".toList, "ApplicationPassword".toList]

/-- The conjunction token And. -/
def andTok : List Char := "And".toList

/-- The conjunction token Or. -/
def orTok : List Char := "Or".toList

/-- First vocabulary member that is a prefix of `s` (the alternation
built by strings.Join(validTerms, "|") tried left to right), together
with the rest of `s`. -/
def takeTerm (s : List Char) : Option (List Char × List Char) :=
  (accessControlOptions.find? (fun t => t.isPrefixOf s)).map
    (fun t => (t, s.drop t.length))

/-- First conjunction (And before Or, as in the alternation `(And|Or)`)
that is a prefix of `s`, together with the rest of `s`. -/
def takeConj (s : List Char) : Option (List Char × List Char) :=
  ([andTok, orTok].find? (fun t => t.isPrefixOf s)).map
    (fun t => (t, s.drop t.length))

/-- Fuelled matcher for the part of the structure regex after the
leading term: `(?:\s*(And|Or)\s*(T1|...|Tn))*` anchored at the end.
Called with fuel larger than the length of its argument. -/
def matchTailF : Nat → List Char → Bool
  | 0, _ => false
  | _ + 1, [] => true
  | fuel + 1, c :: rest =>
    match takeConj (List.dropWhile isWS (c :: rest)) with
    | none => false
    | some (_, s2) =>
      match takeTerm (List.dropWhile isWS s2) with
      | none => false
      | some (_, s4) => matchTailF fuel s4

/-- Embedding of `regex.MatchString(a.accessControl)` for the anchored
structure regex `^(T1|...|Tn)(?:\s*(And|Or)\s*(T1|...|Tn))*$`: the
string belongs to the language of the pattern.  Because no vocabulary
term is a prefix of another, none contains or ends inside And or Or,
and whitespace never starts a term or conjunction, the language is
recognised by this deterministic scan (proved below by the equivalence
with the declarative language `Joins`). -/
def matchGrammar (s : List Char) : Bool :=
  match takeTerm s with
  | none => false
  | some (_, r) => matchTailF (r.length + 1) r

/-- One attempt of the split regex `\s*(And|Or)\s*` at the current
position: the extent a leftmost-first (Perl-preference) engine matches
here, if any, returning what follows the separator. -/
def trySep (s : List Char) : Option (List Char) :=
  match takeConj (List.dropWhile isWS s) with
  | none => none
  | some (_, s2) => some (List.dropWhile isWS s2)

/-- Fuelled scan implementing `splitRegex.Split(a.accessControl, -1)`:
cut the string at every leftmost, non-overlapping match of
`\s*(And|Or)\s*`.  Called with fuel larger than the input length. -/
def splitGoF : Nat → List Char → List Char → List (List Char)
  | 0, acc, _ => [acc.reverse]
  | _ + 1, acc, [] => [acc.reverse]
  | fuel + 1, acc, c :: rest =>
    match trySep (c :: rest) with
    | some rest2 => acc.reverse :: splitGoF fuel [] rest2
    | none => splitGoF fuel (c :: acc) rest

/-- Embedding of `splitRegex.Split(s, -1)` with `splitRegex` compiled
from `\s*(And|Or)\s*`. -/
def splitOnConj (s : List Char) : List (List Char) :=
  splitGoF (s.length + 1) [] s

/-- Embedding of strings.TrimSpace on the characters of the RE2 class
backslash-s (the only whitespace reachable here). -/
def trimWS (s : List Char) : List Char :=
  ((s.dropWhile isWS).reverse.dropWhile isWS).reverse

/-- The duplicate scan of validateAccessControls: walk the split terms
keeping the set of trimmed terms seen so far and report the first
trimmed term already seen. -/
def findDupFrom (seen : List (List Char)) : List (List Char) → Option (List Char)
  | [] => none
  | t :: rest =>
    if trimWS t ∈ seen then some (trimWS t)
    else findDupFrom (trimWS t :: seen) rest

/-- Errors produced by validateAccessControls: the invalid-syntax error
carrying the raw string, and the repeated-term error carrying the
trimmed offending term. -/
inductive VErr
  | invalidSyntax (raw : List Char)
  | duplicateTerm (t : List Char)
deriving DecidableEq

/-- Embedding of validateAccessControls from cli/global.go: reject the
string unless it matches the anchored structure regex, split it on
`\s*(And|Or)\s*`, reject the first repeated (trimmed) term, and return
the split terms unchanged. -/
def validateAccessControls (accessControl : List Char) :
    Except VErr (List (List Char)) :=
  if matchGrammar accessControl then
    match findDupFrom [] (splitOnConj accessControl) with
    | some t => .error (.duplicateTerm t)
    | none => .ok (splitOnConj accessControl)
  else
    .error (.invalidSyntax accessControl)

/-- Declarative language of the anchored structure regex
`^(T1|...|Tn)(?:\s*(And|Or)\s*(T1|...|Tn))*$`, indexed by the sequence
of vocabulary terms of the decomposition. -/
inductive Joins : List Char → List (List Char) → Prop
  | single (t : List Char) (ht : t ∈ accessControlOptions) : Joins t [t]
  | cons (t w1 c w2 s : List Char) (ts : List (List Char))
      (ht : t ∈ accessControlOptions)
      (hc : c = andTok ∨ c = orTok)
      (hw1 : ∀ x ∈ w1, isWS x = true)
      (hw2 : ∀ x ∈ w2, isWS x = true)
      (hs : Joins s ts) :
      Joins (t ++ w1 ++ c ++ w2 ++ s) (t :: ts)

/-- Language of the grammar exactly as the specification words it:
TERM (followed by zero or more of a conjunction And or Or directly
followed by a TERM), with no whitespace anywhere.  This is the second,
spec-side definition used to compare the spec sentence with the code. -/
inductive SpecJoins : List Char → List (List Char) → Prop
  | single (t : List Char) (ht : t ∈ accessControlOptions) : SpecJoins t [t]
  | cons (t c s : List Char) (ts : List (List Char))
      (ht : t ∈ accessControlOptions)
      (hc : c = andTok ∨ c = orTok)
      (hs : SpecJoins s ts) :
      SpecJoins (t ++ c ++ s) (t :: ts)

/-- Head character exists and is not whitespace. -/
def headNonWSB : List Char → Bool
  | [] => false
  | c :: _ => !isWS c

/-- Decidable conjunction of the per-suffix facts that make the scan of
a term deterministic: no suffix of the term starts with whitespace, no
suffix starts with And or Or, and no suffix is a prefix of And or Or. -/
def sepFreeB (t : List Char) : Bool :=
  (List.range t.length).all (fun j =>
    headNonWSB (t.drop j) &&
    !andTok.isPrefixOf (t.drop j) && !orTok.isPrefixOf (t.drop j) &&
    !(t.drop j).isPrefixOf andTok && !(t.drop j).isPrefixOf orTok)

/-- Joining terms with bare conjunctions: the string
t ++ c1 ++ t1 ++ ... ++ ck ++ tk described by claim C3. -/
def joinWith (t : List Char) (ps : List (List Char × List Char)) : List Char :=
  t ++ ps.foldr (fun p acc => p.1 ++ p.2 ++ acc) []

/-- The first term of the sequence that repeats an earlier occurrence,
scanning left to right, stated declaratively: position i holds t, t
already occurred before i, and no earlier position is itself a
repeat. -/
def IsFirstRepeat (ts : List (List Char)) (t : List Char) : Prop :=
  ∃ i, ∃ hi : i < ts.length,
    ts.get ⟨i, hi⟩ = t ∧ t ∈ ts.take i ∧
    ∀ j, ∀ hj : j < ts.length, j < i → ts.get ⟨j, hj⟩ ∉ ts.take j

/-! ## Copy orchestrator -/

/-- The three secret namespaces of cli/copy.go. -/
inductive Ns
  | credential
  | oidcToken
  | session
deriving DecidableEq

/-- Modelled from the spec: the vault package keyring wrappers
(CredentialKeyring, OIDCTokenKeyring, SessionKeyring, outside src/)
present a keyring as three disjoint namespaces, each a mapping from a
string key to an opaque payload; embedded as association lists. -/
structure Store where
  credential : List (String × String)
  oidcToken : List (String × String)
  session : List (String × String)
deriving DecidableEq

/-- The map of one namespace of a store. -/
def Store.ns (st : Store) : Ns → List (String × String)
  | .credential => st.credential
  | .oidcToken => st.oidcToken
  | .session => st.session

/-- Replace the map of one namespace of a store. -/
def Store.setNs (st : Store) : Ns → List (String × String) → Store
  | .credential, m => { st with credential := m }
  | .oidcToken, m => { st with oidcToken := m }
  | .session, m => { st with session := m }

/-- Lookup of a key in a namespace map, as the keyring Get. -/
def lookupKey : List (String × String) → String → Option String
  | [], _ => none
  | (k2, v) :: r, k => if k2 = k then some v else lookupKey r k

/-- Write of a key in a namespace map, as the keyring Set: replace the
existing entry in place or append a new one. -/
def setEntry : List (String × String) → String → String → List (String × String)
  | [], k, v => [(k, v)]
  | (k2, v2) :: r, k, v => if k2 = k then (k, v) :: r else (k2, v2) :: setEntry r k v

/-- The key list a namespace enumeration returns. -/
def keysOf (m : List (String × String)) : List String :=
  m.map Prod.fst

/-- Which of the two stores an operation is invoked on. -/
inductive Tag
  | source
  | dest
deriving DecidableEq

/-- Store operations the keyring capability interface offers; the trace
of a run records every invocation CopyCommand performs. -/
inductive KOp
  | keys (tag : Tag) (ns : Ns)
  | get (tag : Tag) (ns : Ns) (k : String)
  | set (tag : Tag) (ns : Ns) (k v : String)
  | remove (tag : Tag) (ns : Ns) (k : String)
deriving DecidableEq

/-- The store an operation touches. -/
def KOp.tag : KOp → Tag
  | .keys tg _ => tg
  | .get tg _ _ => tg
  | .set tg _ _ _ => tg
  | .remove tg _ _ => tg

/-- Operations that only read a store. -/
def KOp.isReadOnly : KOp → Bool
  | .keys _ _ => true
  | .get _ _ _ => true
  | .set _ _ _ _ => false
  | .remove _ _ _ => false

/-- Key-enumeration operations. -/
def KOp.isKeys : KOp → Bool
  | .keys _ _ => true
  | _ => false

/-- Modelled from the spec: the secret-store backends (outside src/) may
fail on any Keys, Get or Set call; a fault oracle fixes which calls of a
run fail and with which error. -/
structure Faults where
  keysErr : Ns → Option String
  getErr : Ns → String → Option String
  setErr : Ns → String → Option String

/-- The two stores CopyCommand works on. -/
structure CopyState where
  src : Store
  dst : Store
deriving DecidableEq

/-- Modelled from the spec: CopyResult holds the per-namespace counts of
items successfully copied (the Go function returns only an error; on the
success path these counts equal the lengths it prints). -/
structure CopyResult where
  credential : Nat
  oidcToken : Nat
  session : Nat
deriving DecidableEq

/-- Everything one run of CopyCommand produces: the returned error (if
any), the final pair of stores, the trace of store operations invoked,
and the per-namespace counts of successful copies. -/
structure CopyOut where
  res : Except String Unit
  state : CopyState
  trace : List KOp
  counts : CopyResult

/-- The error the keyring Get returns for a missing key. -/
def notFoundErr : String := "keyring: key not found"

/-- One namespace loop of CopyCommand: for each enumerated key in order,
Get it from the source, fail fast on a read error, Set it in the
destination, fail fast on a write error. -/
def copyNames (f : Faults) (ns : Ns) :
    List String → CopyState → Except String Unit × CopyState × List KOp × Nat
  | [], st => (.ok (), st, [], 0)
  | k :: rest, st =>
    match f.getErr ns k with
    | some e => (.error e, st, [.get .source ns k], 0)
    | none =>
      match lookupKey (st.src.ns ns) k with
      | none => (.error notFoundErr, st, [.get .source ns k], 0)
      | some v =>
        match f.setErr ns k with
        | some e => (.error e, st, [.get .source ns k, .set .dest ns k v], 0)
        | none =>
          let out := copyNames f ns rest
            { st with dst := st.dst.setNs ns (setEntry (st.dst.ns ns) k v) }
          (out.1, out.2.1, .get .source ns k :: .set .dest ns k v :: out.2.2.1,
            out.2.2.2 + 1)

/-- Embedding of CopyCommand from cli/copy.go: enumerate the keys of all
three namespaces of the source (aborting on the first enumeration
error), then copy namespace by namespace in the fixed order Credential,
OIDCToken, Session, aborting on the first read or write error. -/
def CopyCommand (f : Faults) (st : CopyState) : CopyOut :=
  match f.keysErr .credential with
  | some e => ⟨.error e, st, [.keys .source .credential], ⟨0, 0, 0⟩⟩
  | none =>
    match f.keysErr .oidcToken with
    | some e =>
      ⟨.error e, st, [.keys .source .credential, .keys .source .oidcToken], ⟨0, 0, 0⟩⟩
    | none =>
      match f.keysErr .session with
      | some e =>
        ⟨.error e, st,
          [.keys .source .credential, .keys .source .oidcToken, .keys .source .session],
          ⟨0, 0, 0⟩⟩
      | none =>
        let out1 := copyNames f .credential (keysOf (st.src.ns .credential)) st
        match out1.1 with
        | .error e =>
          ⟨.error e, out1.2.1,
            [.keys .source .credential, .keys .source .oidcToken, .keys .source .session]
              ++ out1.2.2.1, ⟨out1.2.2.2, 0, 0⟩⟩
        | .ok _ =>
          let out2 := copyNames f .oidcToken (keysOf (st.src.ns .oidcToken)) out1.2.1
          match out2.1 with
          | .error e =>
            ⟨.error e, out2.2.1,
              [.keys .source .credential, .keys .source .oidcToken, .keys .source .session]
                ++ out1.2.2.1 ++ out2.2.2.1, ⟨out1.2.2.2, out2.2.2.2, 0⟩⟩
          | .ok _ =>
            let out3 := copyNames f .session (keysOf (st.src.ns .session)) out2.2.1
            ⟨out3.1, out3.2.1,
              [.keys .source .credential, .keys .source .oidcToken, .keys .source .session]
                ++ out1.2.2.1 ++ out2.2.2.1 ++ out3.2.2.1,
              ⟨out1.2.2.2, out2.2.2.2, out3.2.2.2⟩⟩

/-- A fault oracle with no failing calls. -/
def noFaults : Faults :=
  { keysErr := fun _ => none, getErr := fun _ _ => none, setErr := fun _ _ => none }

/-- Source store of the two-credential copy scenario. -/
def srcC7 : Store := ⟨[(r"a", r"x"), (r"b", r"y")], [], []⟩

/-- Initial state of the two-credential copy scenario: the destination
store is empty. -/
def stC7 : CopyState := ⟨srcC7, ⟨[], [], []⟩⟩

/-- The error injected by the fault oracles of the witnesses. -/
def eBoom : String := "injected backend failure"

/-- Fault oracle whose OIDCToken key enumeration fails. -/
def fC1 : Faults :=
  { keysErr := fun ns => if ns = Ns.oidcToken then some eBoom else none,
    getErr := fun _ _ => none, setErr := fun _ _ => none }

/-- Fault oracle whose read of the one given Credential key fails. -/
def fC2 (k2 e : String) : Faults :=
  { keysErr := fun _ => none,
    getErr := fun ns k => if ns = Ns.credential ∧ k = k2 then some e else none,
    setErr := fun _ _ => none }

/-- The term UserPresence. -/
def upTok : List Char := "UserPresence".toList

/-- The term Watch. -/
def watchTok : List Char := "Watch".toList

/-- The input of the counterexample to claim C4: a string with spaces
around the conjunction. -/
def rawWS : List Char := "UserPresence And Watch".toList

/-- The input of the witness for C5. -/
def rawWW : List Char := "WatchAndWatch".toList

/-- The input of the witness for C6. -/
def rawUW : List Char := "UserPresenceAndWatch".toList

/-- The four malformed inputs of claim C8. -/
def rawC8a : List Char := "AndUserPresence".toList

/-- Second malformed input of claim C8. -/
def rawC8b : List Char := "UserPresenceAnd".toList

/-- Third malformed input of claim C8. -/
def rawC8c : List Char := "UserPresence,Watch".toList

/-- Fourth malformed input of claim C8. -/
def rawC8d : List Char := "UserPresenceAndAndWatch".toList

/-! ## Decidable facts about the vocabulary -/

theorem vocab_ne_nil : ∀ t ∈ accessControlOptions, t ≠ [] := by decide

theorem vocab_headNonWS : ∀ t ∈ accessControlOptions, headNonWSB t = true := by decide

theorem vocab_sepFree : ∀ t ∈ accessControlOptions, sepFreeB t = true := by decide

theorem vocab_no_crossPre : ∀ t1 ∈ accessControlOptions, ∀ t2 ∈ accessControlOptions,
    t1.isPrefixOf t2 → t1 = t2 := by decide

theorem vocab_trim : ∀ t ∈ accessControlOptions, trimWS t = t := by decide

theorem andTok_headNonWS : headNonWSB andTok = true := by decide

theorem orTok_headNonWS : headNonWSB orTok = true := by decide

theorem andTok_ne_nil : andTok ≠ [] := by decide

theorem orTok_ne_nil : orTok ≠ [] := by decide

theorem conj_ne_nil {c : List Char} (hc : c = andTok ∨ c = orTok) : c ≠ [] := by
  rcases hc with rfl | rfl
  · exact andTok_ne_nil
  · exact orTok_ne_nil

theorem conj_headNonWS {c : List Char} (hc : c = andTok ∨ c = orTok) :
    headNonWSB c = true := by
  rcases hc with rfl | rfl
  · exact andTok_headNonWS
  · exact orTok_headNonWS

/-! ## Generic helper lemmas -/

theorem isPreOf_iff {l1 l2 : List Char} : l1.isPrefixOf l2 = true ↔ l1 <+: l2 :=
  List.isPrefixOf_iff_prefix

theorem pre_or_pre {α : Type} {l1 l2 l3 : List α} (h1 : l1 <+: l3) (h2 : l2 <+: l3) :
    l1 <+: l2 ∨ l2 <+: l1 :=
  List.prefix_or_prefix_of_prefix h1 h2

theorem pre_of_append {α : Type} (l1 l2 : List α) : l1 <+: l1 ++ l2 :=
  List.prefix_append l1 l2

theorem headNonWSB_append {s : List Char} (r : List Char) (h : headNonWSB s = true) :
    headNonWSB (s ++ r) = true := by
  cases s with
  | nil => simp [headNonWSB] at h
  | cons c cs => simpa [headNonWSB] using h

theorem dropWhile_headNonWS {s : List Char} (h : headNonWSB s = true) :
    List.dropWhile isWS s = s := by
  cases s with
  | nil => simp [headNonWSB] at h
  | cons c cs =>
    have hcw : isWS c = false := by simpa [headNonWSB] using h
    simp [List.dropWhile_cons, hcw]

theorem dropWhile_ws_append {w : List Char} (r : List Char)
    (hw : ∀ x ∈ w, isWS x = true) :
    List.dropWhile isWS (w ++ r) = List.dropWhile isWS r :=
  List.dropWhile_append_of_pos hw

theorem not_pre_append {a s0 r : List Char} (h1 : ¬ a <+: s0) (h2 : ¬ s0 <+: a) :
    ¬ a <+: s0 ++ r := by
  intro hc
  rcases pre_or_pre hc (pre_of_append s0 r) with h | h
  · exact h1 h
  · exact h2 h

theorem takeTerm_eq_some {s t r : List Char} (h : takeTerm s = some (t, r)) :
    t ∈ accessControlOptions ∧ s = t ++ r := by
  unfold takeTerm at h
  cases hf : accessControlOptions.find? (fun t => t.isPrefixOf s) with
  | none => rw [hf] at h; simp at h
  | some t2 =>
    rw [hf] at h
    have hmem := List.mem_of_find?_eq_some hf
    have hpre : t2.isPrefixOf s := by simpa using List.find?_some hf
    obtain ⟨u, hu⟩ := isPreOf_iff.mp hpre
    have h2 := Option.some.inj h
    have ha : t2 = t := congrArg Prod.fst h2
    have hb : List.drop t2.length s = r := congrArg Prod.snd h2
    subst ha
    subst hb
    refine ⟨hmem, ?_⟩
    rw [← hu, List.drop_left]

theorem takeTerm_append {t : List Char} (r : List Char) (ht : t ∈ accessControlOptions) :
    takeTerm (t ++ r) = some (t, r) := by
  unfold takeTerm
  cases hf : accessControlOptions.find? (fun t2 => t2.isPrefixOf (t ++ r)) with
  | none =>
    rw [List.find?_eq_none] at hf
    exact absurd (isPreOf_iff.mpr (pre_of_append t r)) (by simpa using hf t ht)
  | some t2 =>
    have hmem := List.mem_of_find?_eq_some hf
    have hpre : t2 <+: t ++ r := isPreOf_iff.mp (by simpa using List.find?_some hf)
    have ht2 : t2 = t := by
      rcases pre_or_pre hpre (pre_of_append t r) with h | h
      · exact vocab_no_crossPre t2 hmem t ht (isPreOf_iff.mpr h)
      · exact (vocab_no_crossPre t ht t2 hmem (isPreOf_iff.mpr h)).symm
    subst ht2
    simp [List.drop_left]

theorem takeConj_eq_some {s c r : List Char} (h : takeConj s = some (c, r)) :
    (c = andTok ∨ c = orTok) ∧ s = c ++ r := by
  unfold takeConj at h
  cases hf : [andTok, orTok].find? (fun t => t.isPrefixOf s) with
  | none => rw [hf] at h; simp at h
  | some c2 =>
    rw [hf] at h
    have hmem := List.mem_of_find?_eq_some hf
    have hpre : c2.isPrefixOf s := by simpa using List.find?_some hf
    obtain ⟨u, hu⟩ := isPreOf_iff.mp hpre
    have h2 := Option.some.inj h
    have ha : c2 = c := congrArg Prod.fst h2
    have hb : List.drop c2.length s = r := congrArg Prod.snd h2
    subst ha
    subst hb
    refine ⟨by simpa using hmem, ?_⟩
    rw [← hu, List.drop_left]

theorem takeConj_append {c : List Char} (r : List Char) (hc : c = andTok ∨ c = orTok) :
    takeConj (c ++ r) = some (c, r) := by
  rcases hc with rfl | rfl
  · have h1 : andTok.isPrefixOf (andTok ++ r) = true :=
      isPreOf_iff.mpr (pre_of_append _ r)
    simp [takeConj, List.find?, h1, List.drop_left]
  · have h1 : andTok.isPrefixOf (orTok ++ r) = false := by
      have hno : ¬ andTok <+: orTok := fun hx =>
        absurd (isPreOf_iff.mpr hx) (by decide)
      have hno2 : ¬ orTok <+: andTok := fun hx =>
        absurd (isPreOf_iff.mpr hx) (by decide)
      have hp : ¬ andTok.isPrefixOf (orTok ++ r) = true := fun hp =>
        not_pre_append hno hno2 (isPreOf_iff.mp hp)
      exact Bool.eq_false_iff.mpr hp
    have h2 : orTok.isPrefixOf (orTok ++ r) = true :=
      isPreOf_iff.mpr (pre_of_append _ r)
    simp [takeConj, List.find?, h1, h2, List.drop_left]

/-! ## Facts about the language of the structure regex -/

theorem Joins.mem_vocab {s : List Char} {ts : List (List Char)} (h : Joins s ts) :
    ∀ t ∈ ts, t ∈ accessControlOptions := by
  induction h with
  | single t ht => simpa using ht
  | cons t w1 c w2 s2 ts2 ht hc hw1 hw2 hs ih =>
    intro x hx
    rcases List.mem_cons.mp hx with rfl | hx
    · exact ht
    · exact ih x hx

theorem Joins.ts_ne_nil {s : List Char} {ts : List (List Char)} (h : Joins s ts) :
    ts ≠ [] := by
  cases h <;> simp

theorem Joins.headNonWS {s : List Char} {ts : List (List Char)} (h : Joins s ts) :
    headNonWSB s = true := by
  induction h with
  | single t ht => exact vocab_headNonWS t ht
  | cons t w1 c w2 s2 ts2 ht hc hw1 hw2 hs ih =>
    have h1 := vocab_headNonWS t ht
    simpa [List.append_assoc] using headNonWSB_append (w1 ++ c ++ w2 ++ s2) h1

theorem matchTailF_succ_nil (m : Nat) : matchTailF (m + 1) [] = true := rfl

theorem matchTailF_succ {m : Nat} {s : List Char} (hne : s ≠ []) :
    matchTailF (m + 1) s =
      (match takeConj (List.dropWhile isWS s) with
      | none => false
      | some (_, s2) =>
        match takeTerm (List.dropWhile isWS s2) with
        | none => false
        | some (_, s4) => matchTailF m s4) := by
  cases s with
  | nil => exact absurd rfl hne
  | cons c cs => rfl

theorem matchTail_of_joins {s : List Char} {ts : List (List Char)} (h : Joins s ts) :
    ∃ t r, takeTerm s = some (t, r) ∧
      ∀ fuel, r.length < fuel → matchTailF fuel r = true := by
  induction h with
  | single t ht =>
    refine ⟨t, [], ?_, ?_⟩
    · have := takeTerm_append [] ht
      simpa using this
    · intro fuel hf
      cases fuel with
      | zero => simp at hf
      | succ m => exact matchTailF_succ_nil m
  | cons t w1 c w2 s2 ts2 ht hc hw1 hw2 hs ih =>
    obtain ⟨t2, r2, ht2, htail⟩ := ih
    refine ⟨t, w1 ++ c ++ w2 ++ s2, ?_, ?_⟩
    · have := takeTerm_append (w1 ++ c ++ w2 ++ s2) ht
      simpa [List.append_assoc] using this
    · intro fuel hf
      have hlc : 1 ≤ c.length := by
        rcases hc with rfl | rfl <;> decide
      have hrne : w1 ++ c ++ w2 ++ s2 ≠ [] := by
        intro heq
        have h1 := (List.append_eq_nil.mp heq).1
        have h2 := (List.append_eq_nil.mp h1).1
        exact conj_ne_nil hc (List.append_eq_nil.mp h2).2
      cases fuel with
      | zero => exact absurd hf (Nat.not_lt_zero _)
      | succ m =>
        rw [matchTailF_succ hrne]
        have hd1 : List.dropWhile isWS (w1 ++ c ++ w2 ++ s2) = c ++ (w2 ++ s2) := by
          have e1 : w1 ++ c ++ w2 ++ s2 = w1 ++ (c ++ (w2 ++ s2)) := by
            simp [List.append_assoc]
          rw [e1, dropWhile_ws_append _ hw1]
          exact dropWhile_headNonWS (headNonWSB_append _ (conj_headNonWS hc))
        rw [hd1, takeConj_append _ hc]
        show (match takeTerm (List.dropWhile isWS (w2 ++ s2)) with
          | none => false
          | some (_, s4) => matchTailF m s4) = true
        have hd2 : List.dropWhile isWS (w2 ++ s2) = s2 := by
          rw [dropWhile_ws_append _ hw2]
          exact dropWhile_headNonWS hs.headNonWS
        rw [hd2, ht2]
        show matchTailF m r2 = true
        obtain ⟨hmem2, hs2eq⟩ := takeTerm_eq_some ht2
        have hlen : r2.length < m := by
          have h1 : t2 ≠ [] := vocab_ne_nil t2 hmem2
          have h2 : 1 ≤ t2.length := by
            cases t2 with
            | nil => exact absurd rfl h1
            | cons a b => simp
          have h3 : s2.length = t2.length + r2.length := by
            rw [hs2eq]; simp
          have h4 : (w1 ++ c ++ w2 ++ s2).length < m + 1 := hf
          simp [List.length_append] at h4
          omega
        exact htail m hlen

theorem matchGrammar_of_joins {s : List Char} {ts : List (List Char)} (h : Joins s ts) :
    matchGrammar s = true := by
  obtain ⟨t, r, h1, h2⟩ := matchTail_of_joins h
  unfold matchGrammar
  rw [h1]
  exact h2 (r.length + 1) (Nat.lt_succ_self _)

theorem joins_of_matchTail : ∀ fuel : Nat, ∀ r : List Char, matchTailF fuel r = true →
    ∀ t ∈ accessControlOptions, ∃ ts, Joins (t ++ r) (t :: ts) := by
  intro fuel
  induction fuel using Nat.strong_induction_on with
  | _ fuel ih =>
    intro r hm t ht
    cases fuel with
    | zero => simp [matchTailF] at hm
    | succ m =>
      cases r with
      | nil => exact ⟨[], by simpa using Joins.single t ht⟩
      | cons c0 rest =>
        rw [matchTailF_succ (by simp)] at hm
        cases hc : takeConj (List.dropWhile isWS (c0 :: rest)) with
        | none => rw [hc] at hm; simp at hm
        | some pr =>
          obtain ⟨cj, s2⟩ := pr
          rw [hc] at hm
          have hm2 : (match takeTerm (List.dropWhile isWS s2) with
              | none => false
              | some (_, s4) => matchTailF m s4) = true := hm
          cases ht2 : takeTerm (List.dropWhile isWS s2) with
          | none => rw [ht2] at hm2; simp at hm2
          | some pr2 =>
            obtain ⟨t2, s4⟩ := pr2
            rw [ht2] at hm2
            have hm3 : matchTailF m s4 = true := hm2
            obtain ⟨hcj, hd1⟩ := takeConj_eq_some hc
            obtain ⟨ht2v, hd2⟩ := takeTerm_eq_some ht2
            obtain ⟨ts2, hJ⟩ := ih m (Nat.lt_succ_self m) s4 hm3 t2 ht2v
            have hw1 : ∀ x ∈ List.takeWhile isWS (c0 :: rest), isWS x = true :=
              fun x hx => List.mem_takeWhile_imp hx
            have hw2 : ∀ x ∈ List.takeWhile isWS s2, isWS x = true :=
              fun x hx => List.mem_takeWhile_imp hx
            have hstr : c0 :: rest =
                List.takeWhile isWS (c0 :: rest) ++
                  (cj ++ (List.takeWhile isWS s2 ++ (t2 ++ s4))) := by
              conv_lhs => rw [← List.takeWhile_append_dropWhile isWS (c0 :: rest)]
              rw [hd1]
              congr 1
              congr 1
              conv_lhs => rw [← List.takeWhile_append_dropWhile isWS s2]
              rw [hd2]
            refine ⟨t2 :: ts2, ?_⟩
            have hcons := Joins.cons t (List.takeWhile isWS (c0 :: rest)) cj
              (List.takeWhile isWS s2) (t2 ++ s4) (t2 :: ts2) ht hcj hw1 hw2 hJ
            rw [hstr]
            simpa [List.append_assoc] using hcons

theorem joins_of_matchGrammar {s : List Char} (h : matchGrammar s = true) :
    ∃ ts, Joins s ts := by
  unfold matchGrammar at h
  cases htt : takeTerm s with
  | none => rw [htt] at h; simp at h
  | some pr =>
    obtain ⟨t, r⟩ := pr
    rw [htt] at h
    obtain ⟨htv, hseq⟩ := takeTerm_eq_some htt
    obtain ⟨ts, hJ⟩ := joins_of_matchTail (r.length + 1) r h t htv
    exact ⟨t :: ts, hseq ▸ hJ⟩

/-! ## Correctness of the conjunction split on well-formed strings -/

theorem sepFreeB_at {t : List Char} (h : sepFreeB t = true) {j : Nat} (hj : j < t.length) :
    headNonWSB (t.drop j) = true ∧
    andTok.isPrefixOf (t.drop j) = false ∧ orTok.isPrefixOf (t.drop j) = false ∧
    (t.drop j).isPrefixOf andTok = false ∧ (t.drop j).isPrefixOf orTok = false := by
  rw [sepFreeB, List.all_eq_true] at h
  have h2 := h j (List.mem_range.mpr hj)
  simp only [Bool.and_eq_true, Bool.not_eq_true'] at h2
  exact ⟨h2.1.1.1.1, h2.1.1.1.2, h2.1.1.2, h2.1.2, h2.2⟩

theorem sepFreeB_tail {c : Char} {t : List Char} (h : sepFreeB (c :: t) = true) :
    sepFreeB t = true := by
  rw [sepFreeB, List.all_eq_true] at h ⊢
  intro j hj
  have hj2 := List.mem_range.mp hj
  have h2 := h (j + 1) (List.mem_range.mpr (by simpa using Nat.succ_lt_succ hj2))
  simpa [List.drop_succ_cons] using h2

theorem trySep_none_in_term {s0 : List Char} (r : List Char)
    (hh : headNonWSB s0 = true)
    (ha : andTok.isPrefixOf s0 = false) (ho : orTok.isPrefixOf s0 = false)
    (ha2 : s0.isPrefixOf andTok = false) (ho2 : s0.isPrefixOf orTok = false) :
    trySep (s0 ++ r) = none := by
  have hna : ¬ andTok <+: s0 ++ r := by
    refine not_pre_append ?_ ?_
    · intro hx
      rw [isPreOf_iff.mpr hx] at ha
      exact Bool.noConfusion ha
    · intro hx
      rw [isPreOf_iff.mpr hx] at ha2
      exact Bool.noConfusion ha2
  have hno : ¬ orTok <+: s0 ++ r := by
    refine not_pre_append ?_ ?_
    · intro hx
      rw [isPreOf_iff.mpr hx] at ho
      exact Bool.noConfusion ho
    · intro hx
      rw [isPreOf_iff.mpr hx] at ho2
      exact Bool.noConfusion ho2
  have hck : takeConj (s0 ++ r) = none := by
    unfold takeConj
    rw [List.find?_eq_none.mpr ?_]
    · rfl
    · intro x hx hpx
      rcases List.mem_cons.mp hx with rfl | hx2
      · exact hna (isPreOf_iff.mp hpx)
      · rcases List.mem_cons.mp hx2 with rfl | hx3
        · exact hno (isPreOf_iff.mp hpx)
        · simp at hx3
  unfold trySep
  rw [dropWhile_headNonWS (headNonWSB_append r hh), hck]

theorem trySep_sep {w1 c w2 s2 : List Char} (hw1 : ∀ x ∈ w1, isWS x = true)
    (hc : c = andTok ∨ c = orTok) (hw2 : ∀ x ∈ w2, isWS x = true)
    (hs2 : headNonWSB s2 = true) :
    trySep (w1 ++ c ++ w2 ++ s2) = some s2 := by
  unfold trySep
  have e1 : w1 ++ c ++ w2 ++ s2 = w1 ++ (c ++ (w2 ++ s2)) := by
    simp [List.append_assoc]
  rw [e1, dropWhile_ws_append _ hw1,
    dropWhile_headNonWS (headNonWSB_append _ (conj_headNonWS hc)),
    takeConj_append _ hc]
  show some (List.dropWhile isWS (w2 ++ s2)) = some s2
  rw [dropWhile_ws_append _ hw2, dropWhile_headNonWS hs2]

theorem splitGoF_succ_cons (m : Nat) (acc : List Char) (c : Char) (rest : List Char) :
    splitGoF (m + 1) acc (c :: rest) =
      (match trySep (c :: rest) with
      | some rest2 => acc.reverse :: splitGoF m [] rest2
      | none => splitGoF m (c :: acc) rest) := rfl

theorem splitGoF_succ_nil (m : Nat) (acc : List Char) :
    splitGoF (m + 1) acc [] = [acc.reverse] := rfl

theorem splitGoF_sep {rest s2 : List Char} (m : Nat) (acc : List Char)
    (hne : rest ≠ []) (hsep : trySep rest = some s2) :
    splitGoF (m + 1) acc rest = acc.reverse :: splitGoF m [] s2 := by
  cases rest with
  | nil => exact absurd rfl hne
  | cons c rr => rw [splitGoF_succ_cons, hsep]

theorem splitGoF_through_term : ∀ t : List Char, sepFreeB t = true →
    ∀ (acc r : List Char) (fuel : Nat),
    splitGoF (t.length + fuel) acc (t ++ r) = splitGoF fuel (t.reverse ++ acc) r := by
  intro t
  induction t with
  | nil =>
    intro h acc r fuel
    simp
  | cons c t2 ih =>
    intro h acc r fuel
    have h0 := sepFreeB_at h (show 0 < (c :: t2).length by simp)
    rw [List.drop_zero] at h0
    obtain ⟨hh, ha, ho, ha2, ho2⟩ := h0
    have htail := sepFreeB_tail h
    have hnone : trySep ((c :: t2) ++ r) = none :=
      trySep_none_in_term r hh ha ho ha2 ho2
    have hnone2 : trySep (c :: (t2 ++ r)) = none := hnone
    show splitGoF ((c :: t2).length + fuel) acc ((c :: t2) ++ r) = _
    have harith : (c :: t2).length + fuel = (t2.length + fuel) + 1 := by
      simp [Nat.add_assoc, Nat.add_comm, Nat.add_left_comm]
    rw [harith]
    show splitGoF ((t2.length + fuel) + 1) acc (c :: (t2 ++ r)) = _
    rw [splitGoF_succ_cons, hnone2]
    rw [ih htail (c :: acc) r fuel]
    simp

theorem splitGoF_joins {s : List Char} {ts : List (List Char)} (h : Joins s ts) :
    ∀ fuel, s.length < fuel → splitGoF fuel [] s = ts := by
  induction h with
  | single t ht =>
    intro fuel hf
    have hsf := vocab_sepFree t ht
    obtain ⟨m, hm⟩ : ∃ m, fuel - t.length = m + 1 := ⟨fuel - t.length - 1, by omega⟩
    have harith : fuel = t.length + (m + 1) := by omega
    have h2 := splitGoF_through_term t hsf [] [] (m + 1)
    rw [List.append_nil] at h2
    rw [harith, h2, splitGoF_succ_nil]
    simp
  | cons t w1 c w2 s2 ts2 ht hc hw1 hw2 hs ih =>
    intro fuel hf
    have hsf := vocab_sepFree t ht
    have hlc : 1 ≤ c.length := by
      rcases hc with rfl | rfl <;> decide
    have hf2 : t.length + (w1.length + (c.length + (w2.length + s2.length))) < fuel := by
      simpa [List.length_append] using hf
    obtain ⟨m, hm⟩ : ∃ m, fuel - t.length = m + 1 := ⟨fuel - t.length - 1, by omega⟩
    have harith : fuel = t.length + (m + 1) := by omega
    have h2 := splitGoF_through_term t hsf [] (w1 ++ c ++ w2 ++ s2) (m + 1)
    have e : t ++ w1 ++ c ++ w2 ++ s2 = t ++ (w1 ++ c ++ w2 ++ s2) := by
      simp [List.append_assoc]
    have hsep : trySep (w1 ++ c ++ w2 ++ s2) = some s2 :=
      trySep_sep hw1 hc hw2 hs.headNonWS
    have hrne : w1 ++ c ++ w2 ++ s2 ≠ [] := by
      intro heq
      have hq1 := (List.append_eq_nil.mp heq).1
      have hq2 := (List.append_eq_nil.mp hq1).1
      exact conj_ne_nil hc (List.append_eq_nil.mp hq2).2
    have hml : s2.length < m := by omega
    rw [harith, e, h2, splitGoF_sep m _ hrne hsep, ih m hml]
    simp

theorem splitOnConj_joins {s : List Char} {ts : List (List Char)} (h : Joins s ts) :
    splitOnConj s = ts :=
  splitGoF_joins h (s.length + 1) (Nat.lt_succ_self _)

/-! ## The duplicate scan -/

theorem take_append_le {α : Type} {l1 l2 : List α} {j : Nat} (h : j ≤ l1.length) :
    (l1 ++ l2).take j = l1.take j := by
  rw [List.take_append_eq_append_take]
  have h0 : j - l1.length = 0 := by omega
  rw [h0]
  simp

theorem findDupFrom_eq_none {ts : List (List Char)} (htr : ∀ x ∈ ts, trimWS x = x) :
    ∀ seen, findDupFrom seen ts = none ↔ ((∀ x ∈ ts, x ∉ seen) ∧ ts.Nodup) := by
  induction ts with
  | nil => intro seen; simp [findDupFrom]
  | cons t rest ih =>
    intro seen
    have htt : trimWS t = t := htr t (List.mem_cons_self t rest)
    have htr2 : ∀ x ∈ rest, trimWS x = x := fun x hx => htr x (List.mem_cons_of_mem t hx)
    unfold findDupFrom
    rw [htt]
    by_cases hseen : t ∈ seen
    · rw [if_pos hseen]
      constructor
      · intro h; exact Option.noConfusion h
      · rintro ⟨hall, hnd⟩
        exact absurd hseen (hall t (List.mem_cons_self t rest))
    · rw [if_neg hseen]
      rw [ih htr2 (t :: seen)]
      constructor
      · rintro ⟨hall, hnd⟩
        refine ⟨?_, List.nodup_cons.mpr ⟨?_, hnd⟩⟩
        · intro x hx
          rcases List.mem_cons.mp hx with rfl | hx2
          · exact hseen
          · exact fun hxs => hall x hx2 (List.mem_cons_of_mem t hxs)
        · intro htr3
          exact hall t htr3 (List.mem_cons_self t seen)
      · rintro ⟨hall, hnd⟩
        rw [List.nodup_cons] at hnd
        refine ⟨?_, hnd.2⟩
        intro x hx hxts
        rcases List.mem_cons.mp hxts with rfl | hxs
        · exact hnd.1 hx
        · exact hall x (List.mem_cons_of_mem t hx) hxs

theorem findDupFrom_some_first : ∀ (ts scanned : List (List Char)) (t : List Char),
    (∀ x ∈ ts, trimWS x = x) →
    (∀ j, ∀ hj : j < scanned.length, scanned.get ⟨j, hj⟩ ∉ scanned.take j) →
    findDupFrom scanned.reverse ts = some t →
    IsFirstRepeat (scanned ++ ts) t := by
  intro ts
  induction ts with
  | nil =>
    intro scanned t _ _ h
    simp [findDupFrom] at h
  | cons t0 rest ih =>
    intro scanned t htr hprev h
    have htt : trimWS t0 = t0 := htr t0 (List.mem_cons_self t0 rest)
    have htr2 : ∀ x ∈ rest, trimWS x = x := fun x hx => htr x (List.mem_cons_of_mem t0 hx)
    unfold findDupFrom at h
    rw [htt] at h
    by_cases hseen : t0 ∈ scanned.reverse
    · rw [if_pos hseen] at h
      have ht : t = t0 := (Option.some.inj h).symm
      subst ht
      refine ⟨scanned.length, ?_, ?_, ?_, ?_⟩
      · simp
    -- remaining goals filled below
      · rw [List.get_eq_getElem, List.getElem_append_right (Nat.le_refl _)]
        simp
      · rw [take_append_le (Nat.le_refl _), List.take_length]
        exact List.mem_reverse.mp hseen
      · intro j hj hji
        rw [List.get_eq_getElem, List.getElem_append_left hji,
          take_append_le (Nat.le_of_lt hji)]
        exact hprev j hji
    · rw [if_neg hseen] at h
      have hrec : findDupFrom (scanned ++ [t0]).reverse rest = some t := by
        rw [List.reverse_append]
        simpa using h
      have hprev2 : ∀ j, ∀ hj : j < (scanned ++ [t0]).length,
          (scanned ++ [t0]).get ⟨j, hj⟩ ∉ (scanned ++ [t0]).take j := by
        intro j hj
        rcases Nat.lt_or_ge j scanned.length with hlt | hge
        · rw [List.get_eq_getElem, List.getElem_append_left hlt,
            take_append_le (Nat.le_of_lt hlt)]
          exact hprev j hlt
        · have hj2 : j = scanned.length := by
            simp at hj
            omega
          subst hj2
          rw [List.get_eq_getElem, List.getElem_append_right (Nat.le_refl _),
            take_append_le (Nat.le_refl _), List.take_length]
          simp
          exact fun hmem => hseen (List.mem_reverse.mpr hmem)
      have hmain := ih (scanned ++ [t0]) t htr2 hprev2 hrec
      rwa [List.append_assoc, List.singleton_append] at hmain

theorem isFirstRepeat_of_findDup {ts : List (List Char)} {t : List Char}
    (htr : ∀ x ∈ ts, trimWS x = x) (h : findDupFrom [] ts = some t) :
    IsFirstRepeat ts t := by
  have hmain := findDupFrom_some_first ts [] t htr (by intro j hj; simp at hj)
    (by simpa using h)
  simpa using hmain


/-! ## Auxiliary results feeding the claim theorems -/

theorem joins_joinWith : ∀ (t : List Char) (ps : List (List Char × List Char)),
    t ∈ accessControlOptions →
    (∀ p ∈ ps, (p.1 = andTok ∨ p.1 = orTok) ∧ p.2 ∈ accessControlOptions) →
    Joins (joinWith t ps) (t :: ps.map Prod.snd) := by
  intro t ps
  induction ps generalizing t with
  | nil =>
    intro ht _
    have he : joinWith t [] = t := by simp [joinWith]
    rw [he]
    exact Joins.single t ht
  | cons p rest ih =>
    intro ht hps
    obtain ⟨hc, ht2⟩ := hps p (List.mem_cons_self p rest)
    have hrest : ∀ q ∈ rest, (q.1 = andTok ∨ q.1 = orTok) ∧ q.2 ∈ accessControlOptions :=
      fun q hq => hps q (List.mem_cons_of_mem p hq)
    have hJ := ih p.2 ht2 hrest
    have hcons := Joins.cons t [] p.1 [] (joinWith p.2 rest) (p.2 :: rest.map Prod.snd)
      ht hc (by simp) (by simp) hJ
    have he : t ++ [] ++ p.1 ++ [] ++ joinWith p.2 rest = joinWith t (p :: rest) := by
      simp [joinWith, List.append_assoc]
    rw [he] at hcons
    simpa using hcons

theorem validate_of_joins_nodup {raw : List Char} {ts : List (List Char)}
    (hJ : Joins raw ts) (hnd : ts.Nodup) :
    validateAccessControls raw = .ok ts := by
  have hm := matchGrammar_of_joins hJ
  have hsp := splitOnConj_joins hJ
  have htr : ∀ x ∈ ts, trimWS x = x := fun x hx => vocab_trim x (hJ.mem_vocab x hx)
  have hfd : findDupFrom [] ts = none :=
    ((findDupFrom_eq_none htr) []).mpr ⟨by simp, hnd⟩
  unfold validateAccessControls
  rw [if_pos hm, hsp, hfd]

/-! ## Claim theorems for the expression validator -/

/-- Claim C3: every string obtained by joining 1..N distinct vocabulary
terms with the conjunctions And and Or, in exact casing and with nothing
in between, is accepted by validateAccessControls, and the validator
returns exactly that sequence of terms, in order, with no error. -/
theorem joined_terms_validate (t : List Char) (ps : List (List Char × List Char))
    (ht : t ∈ accessControlOptions)
    (hps : ∀ p ∈ ps, (p.1 = andTok ∨ p.1 = orTok) ∧ p.2 ∈ accessControlOptions)
    (hnd : (t :: ps.map Prod.snd).Nodup) :
    validateAccessControls (joinWith t ps) = .ok (t :: ps.map Prod.snd) :=
  validate_of_joins_nodup (joins_joinWith t ps ht hps) hnd

/-- Witness for C3: joining UserPresence and Watch with And gives the
accepted string UserPresenceAndWatch and returns both terms in order. -/
theorem joined_terms_validate_witness :
    validateAccessControls (joinWith upTok [(andTok, watchTok)]) = .ok [upTok, watchTok] :=
  joined_terms_validate upTok [(andTok, watchTok)] (by decide) (by decide) (by decide)


/-- Counterexample to claim C4 as stated: the string UserPresence And
Watch does not match the grammar TERM (("And"|"Or") TERM)* the claim
names (that grammar has no whitespace anywhere), yet the validator does
not reject it: the code's regular expression allows the \s* around the
conjunctions, so the string is accepted. -/
theorem spec_grammar_counterexample :
    validateAccessControls rawWS = .ok [upTok, watchTok] ∧
    ¬ ∃ ts, SpecJoins rawWS ts := by
  constructor
  · rfl
  · rintro ⟨ts, h⟩
    have haux : ∀ (s0 : List Char) (ts0 : List (List Char)),
        SpecJoins s0 ts0 → s0 = rawWS → False := by
      intro s0 ts0 h0
      cases h0 with
      | single t ht =>
        intro heq
        subst heq
        revert ht
        decide
      | cons t c s2 ts2 ht hc hs =>
        intro heq
        have htp : t.isPrefixOf rawWS = true := by
          rw [← heq]
          exact isPreOf_iff.mpr ⟨c ++ s2, by simp [List.append_assoc]⟩
        have hfact : ∀ x ∈ accessControlOptions, x.isPrefixOf rawWS = true → x = upTok := by
          decide
        have htup : t = upTok := hfact t ht htp
        subst htup
        have hcs : c ++ s2 = List.drop upTok.length rawWS := by
          have h2 := congrArg (List.drop upTok.length) heq
          rw [List.append_assoc] at h2
          rw [← h2, List.drop_left]
        have hcp : c.isPrefixOf (List.drop upTok.length rawWS) = true := by
          rw [← hcs]
          exact isPreOf_iff.mpr ⟨s2, rfl⟩
        rcases hc with rfl | rfl
        · revert hcp
          decide
        · revert hcp
          decide
    exact haux rawWS ts h rfl

/-- Claim C4, amended: the validator fails with the invalid-syntax error
exactly when the raw string is outside the language of the anchored,
case-sensitive grammar TERM ( \s* ("And"|"Or") \s* TERM )*, i.e. the
grammar of the claim with optional whitespace around conjunctions. -/
theorem invalid_syntax_iff (raw : List Char) :
    validateAccessControls raw = .error (.invalidSyntax raw) ↔ ¬ ∃ ts, Joins raw ts := by
  unfold validateAccessControls
  by_cases hm : matchGrammar raw
  · rw [if_pos hm]
    constructor
    · intro h
      cases hfd : findDupFrom [] (splitOnConj raw) with
      | some t => rw [hfd] at h; exact VErr.noConfusion (Except.error.inj h)
      | none => rw [hfd] at h; exact Except.noConfusion h
    · intro h
      exact absurd (joins_of_matchGrammar hm) h
  · rw [if_neg hm]
    constructor
    · intro _
      rintro ⟨ts, hJ⟩
      exact hm (matchGrammar_of_joins hJ)
    · intro _
      rfl

/-- Claim C5: every string that passes the structural grammar check but
repeats a term is rejected with the duplicate-term error naming the
first term, scanning left to right, that repeats an earlier one. -/
theorem duplicate_term_first (raw : List Char) (ts : List (List Char))
    (hJ : Joins raw ts) (hdup : ¬ ts.Nodup) :
    ∃ t, validateAccessControls raw = .error (.duplicateTerm t) ∧ IsFirstRepeat ts t := by
  have hm := matchGrammar_of_joins hJ
  have hsp := splitOnConj_joins hJ
  have htr : ∀ x ∈ ts, trimWS x = x := fun x hx => vocab_trim x (hJ.mem_vocab x hx)
  have hne : findDupFrom [] ts ≠ none := by
    intro hnone
    rw [(findDupFrom_eq_none htr) []] at hnone
    exact hdup hnone.2
  obtain ⟨t, hft⟩ : ∃ t, findDupFrom [] ts = some t := by
    cases hfd : findDupFrom [] ts with
    | none => exact absurd hfd hne
    | some t => exact ⟨t, rfl⟩
  refine ⟨t, ?_, isFirstRepeat_of_findDup htr hft⟩
  unfold validateAccessControls
  rw [if_pos hm, hsp, hft]


/-- Witness for C5 at the concrete input WatchAndWatch, which repeats
the term Watch. -/
theorem duplicate_term_first_witness :
    ∃ t, validateAccessControls rawWW = .error (.duplicateTerm t) ∧
      IsFirstRepeat [watchTok, watchTok] t := by
  have hJ0 := Joins.cons watchTok [] andTok [] watchTok [watchTok]
    (by decide) (Or.inl rfl) (by simp) (by simp) (Joins.single watchTok (by decide))
  have he : watchTok ++ [] ++ andTok ++ [] ++ watchTok = rawWW := by decide
  rw [he] at hJ0
  exact duplicate_term_first rawWW [watchTok, watchTok] hJ0 (by decide)

/-- Claim C6: whenever the validator accepts, the returned list is a
decomposition of the input: the input is exactly the returned terms
joined by conjunction separators (so stripping the separators yields
exactly the returned sequence, element for element and in order), the
sequence is non-empty, every term is in the vocabulary, and no term
repeats. -/
theorem validate_ok_joins (raw : List Char) (ts : List (List Char))
    (h : validateAccessControls raw = .ok ts) :
    Joins raw ts ∧ ts ≠ [] ∧ (∀ t ∈ ts, t ∈ accessControlOptions) ∧ ts.Nodup := by
  unfold validateAccessControls at h
  by_cases hm : matchGrammar raw
  · rw [if_pos hm] at h
    obtain ⟨ts2, hJ2⟩ := joins_of_matchGrammar hm
    have hsp := splitOnConj_joins hJ2
    cases hfd : findDupFrom [] (splitOnConj raw) with
    | some t => rw [hfd] at h; exact Except.noConfusion h
    | none =>
      rw [hfd] at h
      have hts : ts = ts2 := by
        have := Except.ok.inj h
        rw [← this, hsp]
      subst hts
      have htr : ∀ x ∈ ts, trimWS x = x := fun x hx => vocab_trim x (hJ2.mem_vocab x hx)
      have hnd : ts.Nodup := by
        rw [hsp] at hfd
        exact (((findDupFrom_eq_none htr) []).mp hfd).2
      exact ⟨hJ2, hJ2.ts_ne_nil, hJ2.mem_vocab, hnd⟩
  · rw [if_neg hm] at h
    exact Except.noConfusion h


/-- Witness for C6 at the accepted input UserPresenceAndWatch: the
validator accepts it, so the returned terms decompose the input. -/
theorem validate_ok_joins_witness :
    Joins rawUW [upTok, watchTok] ∧ ([upTok, watchTok] : List (List Char)).Nodup :=
  ⟨(validate_ok_joins rawUW [upTok, watchTok] rfl).1,
    (validate_ok_joins rawUW [upTok, watchTok] rfl).2.2.2⟩





/-- Claim C8: the four inputs AndUserPresence, UserPresenceAnd,
UserPresence,Watch and UserPresenceAndAndWatch are all rejected by the
validator with the invalid-syntax error. -/
theorem malformed_inputs_rejected :
    validateAccessControls rawC8a = .error (.invalidSyntax rawC8a) ∧
    validateAccessControls rawC8b = .error (.invalidSyntax rawC8b) ∧
    validateAccessControls rawC8c = .error (.invalidSyntax rawC8c) ∧
    validateAccessControls rawC8d = .error (.invalidSyntax rawC8d) :=
  ⟨rfl, rfl, rfl, rfl⟩

/-! ## Claim theorems for the copy orchestrator -/

/-- Claim C7: with source holding exactly the Credential entries a to x
and b to y, nothing in the other namespaces, and an empty destination,
CopyCommand succeeds with counts Credential 2, OIDCToken 0, Session 0,
the destination afterwards holds exactly those two pairs under
Credential, the source is unchanged, and the trace shows the three
enumerations followed by the four transfer operations. -/
theorem copy_two_credentials :
    CopyCommand noFaults stC7 =
      ⟨.ok (), ⟨srcC7, ⟨[(r"a", r"x"), (r"b", r"y")], [], []⟩⟩,
        [.keys .source .credential, .keys .source .oidcToken, .keys .source .session,
         .get .source .credential (r"a"), .set .dest .credential (r"a") (r"x"),
         .get .source .credential (r"b"), .set .dest .credential (r"b") (r"y")],
        ⟨2, 0, 0⟩⟩ := rfl

/-- Claim C1: when the Credential enumeration succeeds and the OIDCToken
enumeration fails with error e, CopyCommand returns exactly that error,
leaves both stores untouched (so everything already in the destination,
including any previously copied Credential items, is retained), performs
no read, write or OIDCToken or Session transfer at all, and counts zero
copies. -/
theorem copy_aborts_on_oidc_keys_failure (f : Faults) (st : CopyState) (e : String)
    (h1 : f.keysErr Ns.credential = none) (h2 : f.keysErr Ns.oidcToken = some e) :
    CopyCommand f st =
      ⟨.error e, st, [.keys .source .credential, .keys .source .oidcToken],
        ⟨0, 0, 0⟩⟩ := by
  unfold CopyCommand
  rw [h1, h2]

/-- Witness for C1 at a concrete fault oracle and state. -/
theorem copy_aborts_on_oidc_keys_failure_witness :
    CopyCommand fC1 stC7 =
      ⟨.error eBoom, stC7, [.keys .source .credential, .keys .source .oidcToken],
        ⟨0, 0, 0⟩⟩ :=
  copy_aborts_on_oidc_keys_failure fC1 stC7 eBoom rfl rfl

theorem copyNames_props (f : Faults) (ns : Ns) : ∀ (names : List String) (st : CopyState),
    ((copyNames f ns names st).2.1).src = st.src ∧
    ∀ op ∈ (copyNames f ns names st).2.2.1,
      (op.tag = Tag.source → op.isReadOnly = true) ∧ op.isKeys = false := by
  intro names
  induction names with
  | nil =>
    intro st
    constructor
    · rfl
    · intro op hop
      simp [copyNames] at hop
  | cons k rest ih =>
    intro st
    cases hg : f.getErr ns k with
    | some e =>
      constructor
      · simp [copyNames, hg]
      · intro op hop
        simp [copyNames, hg] at hop
        subst hop
        exact ⟨fun _ => rfl, rfl⟩
    | none =>
      cases hl : lookupKey (st.src.ns ns) k with
      | none =>
        constructor
        · simp [copyNames, hg, hl]
        · intro op hop
          simp [copyNames, hg, hl] at hop
          subst hop
          exact ⟨fun _ => rfl, rfl⟩
      | some v =>
        cases hsf : f.setErr ns k with
        | some e =>
          constructor
          · simp [copyNames, hg, hl, hsf]
          · intro op hop
            simp [copyNames, hg, hl, hsf] at hop
            rcases hop with rfl | rfl
            · exact ⟨fun _ => rfl, rfl⟩
            · exact ⟨fun h => Tag.noConfusion h, rfl⟩
        | none =>
          have ihx := ih { st with dst := st.dst.setNs ns (setEntry (st.dst.ns ns) k v) }
          constructor
          · simp only [copyNames, hg, hl, hsf]
            exact ihx.1
          · intro op hop
            simp only [copyNames, hg, hl, hsf, List.mem_cons] at hop
            rcases hop with rfl | rfl | hop
            · exact ⟨fun _ => rfl, rfl⟩
            · exact ⟨fun h => Tag.noConfusion h, rfl⟩
            · exact ihx.2 op hop

/-- Claim C9: CopyCommand never mutates the source store: its final
source equals the initial source for every fault oracle and every pair
of stores, and every operation of the trace that touches the source
store is a key enumeration or a read. -/
theorem copy_never_mutates_source (f : Faults) (st : CopyState) :
    (CopyCommand f st).state.src = st.src ∧
    ∀ op ∈ (CopyCommand f st).trace, op.tag = Tag.source → op.isReadOnly = true := by
  cases h1 : f.keysErr Ns.credential with
  | some e =>
    constructor
    · simp [CopyCommand, h1]
    · intro op hop
      simp [CopyCommand, h1] at hop
      subst hop
      exact fun _ => rfl
  | none =>
  cases h2 : f.keysErr Ns.oidcToken with
  | some e =>
    constructor
    · simp [CopyCommand, h1, h2]
    · intro op hop
      simp [CopyCommand, h1, h2] at hop
      rcases hop with rfl | rfl <;> exact fun _ => rfl
  | none =>
  cases h3 : f.keysErr Ns.session with
  | some e =>
    constructor
    · simp [CopyCommand, h1, h2, h3]
    · intro op hop
      simp [CopyCommand, h1, h2, h3] at hop
      rcases hop with rfl | rfl | rfl <;> exact fun _ => rfl
  | none =>
    have p1 := copyNames_props f Ns.credential (keysOf (st.src.ns Ns.credential)) st
    cases ho1 : (copyNames f Ns.credential (keysOf (st.src.ns Ns.credential)) st).1 with
    | error e =>
      constructor
      · simp [CopyCommand, h1, h2, h3, ho1]
        exact p1.1
      · intro op hop
        simp [CopyCommand, h1, h2, h3, ho1] at hop
        rcases hop with rfl | rfl | rfl | hop
        · exact fun _ => rfl
        · exact fun _ => rfl
        · exact fun _ => rfl
        · exact (p1.2 op hop).1
    | ok u =>
      have p2 := copyNames_props f Ns.oidcToken (keysOf (st.src.ns Ns.oidcToken))
        (copyNames f Ns.credential (keysOf (st.src.ns Ns.credential)) st).2.1
      cases ho2 : (copyNames f Ns.oidcToken (keysOf (st.src.ns Ns.oidcToken))
          (copyNames f Ns.credential (keysOf (st.src.ns Ns.credential)) st).2.1).1 with
      | error e =>
        constructor
        · simp [CopyCommand, h1, h2, h3, ho1, ho2]
          rw [p2.1, p1.1]
        · intro op hop
          simp [CopyCommand, h1, h2, h3, ho1, ho2] at hop
          rcases hop with rfl | rfl | rfl | hop | hop
          · exact fun _ => rfl
          · exact fun _ => rfl
          · exact fun _ => rfl
          · exact (p1.2 op hop).1
          · exact (p2.2 op hop).1
      | ok u2 =>
        have p3 := copyNames_props f Ns.session (keysOf (st.src.ns Ns.session))
          (copyNames f Ns.oidcToken (keysOf (st.src.ns Ns.oidcToken))
            (copyNames f Ns.credential (keysOf (st.src.ns Ns.credential)) st).2.1).2.1
        constructor
        · simp [CopyCommand, h1, h2, h3, ho1, ho2]
          rw [p3.1, p2.1, p1.1]
        · intro op hop
          simp [CopyCommand, h1, h2, h3, ho1, ho2] at hop
          rcases hop with rfl | rfl | rfl | hop | hop | hop
          · exact fun _ => rfl
          · exact fun _ => rfl
          · exact fun _ => rfl
          · exact (p1.2 op hop).1
          · exact (p2.2 op hop).1
          · exact (p3.2 op hop).1

/-- Witness for C9: the frame property instantiated at a concrete fault
oracle, state and trace operation. -/
theorem copy_never_mutates_source_witness :
    (CopyCommand noFaults stC7).state.src = stC7.src ∧
    (KOp.get Tag.source Ns.credential (r"a")).isReadOnly = true :=
  ⟨(copy_never_mutates_source noFaults stC7).1,
    (copy_never_mutates_source noFaults stC7).2
      (KOp.get Tag.source Ns.credential (r"a")) (by decide) rfl⟩

/-- Claim C10: the trace of every run of CopyCommand is a block of key
enumerations followed by operations none of which is an enumeration (the
three namespaces are enumerated before any read or write), and whenever
the first failing enumeration in the fixed namespace order fails with
error e, CopyCommand returns exactly that error with both stores, in
particular the destination, entirely unmodified. -/
theorem copy_enumerates_before_transfers (f : Faults) (st : CopyState) :
    (∃ p q, (CopyCommand f st).trace = p ++ q ∧ (∀ op ∈ p, op.isKeys = true) ∧
      (∀ op ∈ q, op.isKeys = false)) ∧
    (∀ e : String,
      (f.keysErr Ns.credential = some e ∨
       (f.keysErr Ns.credential = none ∧ f.keysErr Ns.oidcToken = some e) ∨
       (f.keysErr Ns.credential = none ∧ f.keysErr Ns.oidcToken = none ∧
        f.keysErr Ns.session = some e)) →
      (CopyCommand f st).res = .error e ∧ (CopyCommand f st).state = st) := by
  cases h1 : f.keysErr Ns.credential with
  | some e0 =>
    constructor
    · refine ⟨[.keys .source .credential], [], ?_, ?_, ?_⟩
      · simp [CopyCommand, h1]
      · intro op hop
        simp at hop
        subst hop
        rfl
      · intro op hop
        simp at hop
    · intro e hd
      rcases hd with he | ⟨he, _⟩ | ⟨he, _, _⟩
      · have he2 : e0 = e := Option.some.inj he
        subst he2
        constructor <;> simp [CopyCommand, h1]
      · exact Option.noConfusion he
      · exact Option.noConfusion he
  | none =>
  cases h2 : f.keysErr Ns.oidcToken with
  | some e0 =>
    constructor
    · refine ⟨[.keys .source .credential, .keys .source .oidcToken], [], ?_, ?_, ?_⟩
      · simp [CopyCommand, h1, h2]
      · intro op hop
        simp at hop
        rcases hop with rfl | rfl <;> rfl
      · intro op hop
        simp at hop
    · intro e hd
      rcases hd with he | ⟨_, he⟩ | ⟨_, he, _⟩
      · exact Option.noConfusion he
      · have he2 : e0 = e := Option.some.inj he
        subst he2
        constructor <;> simp [CopyCommand, h1, h2]
      · exact Option.noConfusion he
  | none =>
  cases h3 : f.keysErr Ns.session with
  | some e0 =>
    constructor
    · refine ⟨[.keys .source .credential, .keys .source .oidcToken,
          .keys .source .session], [], ?_, ?_, ?_⟩
      · simp [CopyCommand, h1, h2, h3]
      · intro op hop
        simp at hop
        rcases hop with rfl | rfl | rfl <;> rfl
      · intro op hop
        simp at hop
    · intro e hd
      rcases hd with he | ⟨_, he⟩ | ⟨_, _, he⟩
      · exact Option.noConfusion he
      · exact Option.noConfusion he
      · have he2 : e0 = e := Option.some.inj he
        subst he2
        constructor <;> simp [CopyCommand, h1, h2, h3]
  | none =>
    constructor
    · have p1 := copyNames_props f Ns.credential (keysOf (st.src.ns Ns.credential)) st
      cases ho1 : (copyNames f Ns.credential (keysOf (st.src.ns Ns.credential)) st).1 with
      | error e =>
        refine ⟨[.keys .source .credential, .keys .source .oidcToken,
            .keys .source .session],
          (copyNames f Ns.credential (keysOf (st.src.ns Ns.credential)) st).2.2.1,
          ?_, ?_, ?_⟩
        · simp [CopyCommand, h1, h2, h3, ho1]
        · intro op hop
          simp at hop
          rcases hop with rfl | rfl | rfl <;> rfl
        · intro op hop
          exact (p1.2 op hop).2
      | ok u =>
        have p2 := copyNames_props f Ns.oidcToken (keysOf (st.src.ns Ns.oidcToken))
          (copyNames f Ns.credential (keysOf (st.src.ns Ns.credential)) st).2.1
        cases ho2 : (copyNames f Ns.oidcToken (keysOf (st.src.ns Ns.oidcToken))
            (copyNames f Ns.credential (keysOf (st.src.ns Ns.credential)) st).2.1).1 with
        | error e =>
          refine ⟨[.keys .source .credential, .keys .source .oidcToken,
              .keys .source .session],
            (copyNames f Ns.credential (keysOf (st.src.ns Ns.credential)) st).2.2.1 ++
              (copyNames f Ns.oidcToken (keysOf (st.src.ns Ns.oidcToken))
                (copyNames f Ns.credential (keysOf (st.src.ns Ns.credential)) st).2.1).2.2.1,
            ?_, ?_, ?_⟩
          · simp [CopyCommand, h1, h2, h3, ho1, ho2]
          · intro op hop
            simp at hop
            rcases hop with rfl | rfl | rfl <;> rfl
          · intro op hop
            rcases List.mem_append.mp hop with hop | hop
            · exact (p1.2 op hop).2
            · exact (p2.2 op hop).2
        | ok u2 =>
          have p3 := copyNames_props f Ns.session (keysOf (st.src.ns Ns.session))
            (copyNames f Ns.oidcToken (keysOf (st.src.ns Ns.oidcToken))
              (copyNames f Ns.credential (keysOf (st.src.ns Ns.credential)) st).2.1).2.1
          refine ⟨[.keys .source .credential, .keys .source .oidcToken,
              .keys .source .session],
            (copyNames f Ns.credential (keysOf (st.src.ns Ns.credential)) st).2.2.1 ++
              ((copyNames f Ns.oidcToken (keysOf (st.src.ns Ns.oidcToken))
                (copyNames f Ns.credential (keysOf (st.src.ns Ns.credential)) st).2.1).2.2.1 ++
               (copyNames f Ns.session (keysOf (st.src.ns Ns.session))
                (copyNames f Ns.oidcToken (keysOf (st.src.ns Ns.oidcToken))
                  (copyNames f Ns.credential
                    (keysOf (st.src.ns Ns.credential)) st).2.1).2.1).2.2.1),
            ?_, ?_, ?_⟩
          · simp [CopyCommand, h1, h2, h3, ho1, ho2]
          · intro op hop
            simp at hop
            rcases hop with rfl | rfl | rfl <;> rfl
          · intro op hop
            rcases List.mem_append.mp hop with hop | hop
            · exact (p1.2 op hop).2
            · rcases List.mem_append.mp hop with hop | hop
              · exact (p2.2 op hop).2
              · exact (p3.2 op hop).2
    · intro e hd
      rcases hd with he | ⟨_, he⟩ | ⟨_, _, he⟩
      · exact Option.noConfusion he
      · exact Option.noConfusion he
      · exact Option.noConfusion he

/-- Witness for C10: the enumerate-first property instantiated at the
concrete fault oracle whose OIDCToken enumeration fails, with the error
disjunction discharged at the injected error. -/
theorem copy_enumerates_before_transfers_witness :
    (CopyCommand fC1 stC7).res = .error eBoom ∧ (CopyCommand fC1 stC7).state = stC7 :=
  (copy_enumerates_before_transfers fC1 stC7).2 eBoom (Or.inr (Or.inl ⟨rfl, rfl⟩))

/-- Claim C2: with three Credential keys in the source, an empty
destination, and a fault oracle failing the read of the second key with
error e, CopyCommand copies the first pair, aborts on the failed read
returning exactly that error, leaves the destination holding exactly the
first pair, leaves the source unchanged, and counts one Credential copy
and nothing else. -/
theorem copy_read_failure_second (k1 k2 k3 v1 v2 v3 e : String) (h12 : k1 ≠ k2) :
    CopyCommand (fC2 k2 e) ⟨⟨[(k1, v1), (k2, v2), (k3, v3)], [], []⟩, ⟨[], [], []⟩⟩ =
      ⟨.error e, ⟨⟨[(k1, v1), (k2, v2), (k3, v3)], [], []⟩, ⟨[(k1, v1)], [], []⟩⟩,
        [.keys .source .credential, .keys .source .oidcToken, .keys .source .session,
         .get .source .credential k1, .set .dest .credential k1 v1,
         .get .source .credential k2],
        ⟨1, 0, 0⟩⟩ := by
  simp [CopyCommand, fC2, copyNames, keysOf, Store.ns, Store.setNs, lookupKey,
    setEntry, h12]

/-- Witness for C2 at concrete keys, payloads and error. -/
theorem copy_read_failure_second_witness :
    CopyCommand (fC2 (r"b") eBoom)
        ⟨⟨[(r"a", r"x"), (r"b", r"y"), (r"c", r"z")], [], []⟩, ⟨[], [], []⟩⟩ =
      ⟨.error eBoom,
        ⟨⟨[(r"a", r"x"), (r"b", r"y"), (r"c", r"z")], [], []⟩, ⟨[(r"a", r"x")], [], []⟩⟩,
        [.keys .source .credential, .keys .source .oidcToken, .keys .source .session,
         .get .source .credential (r"a"), .set .dest .credential (r"a") (r"x"),
         .get .source .credential (r"b")],
        ⟨1, 0, 0⟩⟩ :=
  copy_read_failure_second (r"a") (r"b") (r"c") (r"x") (r"y") (r"z") eBoom (by decide)

end AVault
